import Mathlib

/-!
Shallow embedding of `interestmodel.py` (GME quarterly interest income
backtest / forecast).

Modelling conventions:
* Calendar dates are integers (a day number); `pandas.Timestamp` day
  arithmetic is integer arithmetic on that day number.
* Money (USD millions) and rates are exact rationals.  The Python code uses
  binary floats; claims phrased with a floating-point tolerance are settled
  in exact arithmetic, where tolerance becomes exact equality.
* A pandas frame is a list of rows (or of per-column values) in index
  order; missing values (NaN) are `Option.none`.
* Fallible Python code (functions whose documented behaviour on bad
  configuration is to raise) is embedded in `Except ConfigError`.
* Hard-coded configuration tables (liquidity anchors, dated events), and
  the outcome of external data fetches, are parameters of the embedded
  functions; the code consults them only through lookups/sums, so every
  theorem quantifies over them.
-/

namespace InterestModel

/-- Day-count denominator, ACT/365F (`DAYCOUNT = 365.0`). -/
def DAYCOUNT : ℚ := 365

/-- Fallback constant rate in percent when FRED is blocked
(`DEFAULT_OFFLINE_RATE_PCT = 5.0`). -/
def DEFAULT_OFFLINE_RATE_PCT : ℚ := 5

/-- Fallback total BTC spend when Yahoo is blocked, USD millions
(`BTC_USD_TOTAL_MM = 510.0`). -/
def BTC_USD_TOTAL_MM : ℚ := 510

/-- Fee uplift on BTC spend, basis points (`BTC_FEE_BPS = 150`). -/
def BTC_FEE_BPS : ℚ := 150

/-- Errors raised by the Python code; the script does not catch these, so
raising one aborts the run. -/
inductive ConfigError
  /-- the `ValueError` of `apply_future_rate_events`: an event carries both
  `delta_bps` and `to_pct`. -/
  | bothRateFields : ConfigError
  /-- the `IndexError` of `ends[-1]` on an empty list in
  `build_quarter_frame_with_forecast`. -/
  | indexErrorEmptyEnds : ConfigError
  /-- the `KeyError` raised by `.assign` reading column `q_end` of an empty
  frame in `build_quarter_frame_with_forecast`. -/
  | keyErrorEmptyFrame : ConfigError
deriving DecidableEq, Repr

/-- Embedding of `pd.date_range(s, e, freq="D")`: every day from `s` to `e`
inclusive, in order; empty when `e < s`. -/
def dateRange (s e : ℤ) : List ℤ :=
  (List.range (e + 1 - s).toNat).map (fun i : ℕ => s + (i : ℤ))

theorem mem_dateRange {s e d : ℤ} : d ∈ dateRange s e ↔ s ≤ d ∧ d ≤ e := by
  constructor
  · intro hd
    obtain ⟨i, hi, hEq⟩ := List.mem_map.mp hd
    have hi' := List.mem_range.mp hi
    omega
  · intro hd
    refine List.mem_map.mpr ⟨(d - s).toNat, List.mem_range.mpr (by omega), by omega⟩

theorem length_dateRange (s e : ℤ) : (dateRange s e).length = (e + 1 - s).toNat := by
  rw [dateRange, List.length_map, List.length_range]

theorem nodup_dateRange (s e : ℤ) : (dateRange s e).Nodup := by
  exact List.Nodup.map (fun a b h => by omega) (List.nodup_range _)

theorem getElem_dateRange (s e : ℤ) (i : ℕ) (h : i < (dateRange s e).length) :
    (dateRange s e)[i] = s + (i : ℤ) := by
  simp only [dateRange, List.getElem_map, List.getElem_range]

/-- One quarter's inputs, `@dataclass QuarterInputs`.  Events and BTC rows
keep only (date, amount): the `label` strings and the BTC diagnostic
columns do not enter the balance arithmetic (`build_daily_path` reads only
`events["date"]`, `events["amount"]` and `btc_out["cash_flow"]`). -/
structure QuarterInputs where
  q_start : ℤ
  q_end : ℤ
  start_liq : ℚ
  end_liq : ℚ
  events : List (ℤ × ℚ)
  btc_out : List (ℤ × ℚ)
deriving DecidableEq

/-- Per-day event flow: `events.set_index("date")["amount"]` reindexed to
the quarter days with `fill_value=0.0` — the amount dated exactly `d`,
`0` when no event falls on `d` (summing amounts; for the duplicate-free
date sets the script uses this is the pandas reindex). -/
def eventFlow (events : List (ℤ × ℚ)) (d : ℤ) : ℚ :=
  ((events.filter (fun p => p.1 = d)).map (fun p => p.2)).sum

/-- Per-day BTC flow: `btc_out.reindex(df.index)["cash_flow"].fillna(0.0)`. -/
def btcFlow (btc_out : List (ℤ × ℚ)) (d : ℤ) : ℚ :=
  ((btc_out.filter (fun p => p.1 = d)).map (fun p => p.2)).sum

/-- The cumulative balance loop of `build_daily_path`:
`bal += d.events + d.btc + d.drift; balance.append(bal)` over the per-day
total flows, returning the `ending_balance_mm` column. -/
def runBalances (bal : ℚ) : List ℚ → List ℚ
  | [] => []
  | f :: fs => (bal + f) :: runBalances (bal + f) fs

/-- The daily frame and quarter interest returned by `build_daily_path`,
column-wise: `days` is the index, the rest are the columns, and
`interest_mm` the returned `float(df["interest_mm"].sum())`. -/
structure DailyPath where
  days : List ℤ
  events : List ℚ
  btc : List ℚ
  drift : ℚ
  ending_balance_mm : List ℚ
  interest_rows : List ℚ
  interest_mm : ℚ
deriving DecidableEq

/-- The quarter's day index: `pd.date_range(inputs.q_start, inputs.q_end, freq="D")`. -/
def quarterDays (inputs : QuarterInputs) : List ℤ :=
  dateRange inputs.q_start inputs.q_end

/-- One day's mechanical flow, the `df["events"] + df["btc"]` summand. -/
def mechFlow (inputs : QuarterInputs) (d : ℤ) : ℚ :=
  eventFlow inputs.events d + btcFlow inputs.btc_out d

/-- The code's `mech_flows_total = (df["events"] + df["btc"]).sum()`. -/
def mechFlowsTotal (inputs : QuarterInputs) : ℚ :=
  ((quarterDays inputs).map (mechFlow inputs)).sum

/-- The code's
`drift_per_day = (inputs.end_liq - inputs.start_liq - mech_flows_total) / n_days`
with `n_days = len(df)`.  Rational division by zero is zero; the Python
float division by an `n_days` of zero cannot arise from the quarter frame,
whose quarters all have at least one day. -/
def driftPerDay (inputs : QuarterInputs) : ℚ :=
  (inputs.end_liq - inputs.start_liq - mechFlowsTotal inputs) /
    (((quarterDays inputs).length : ℚ))

/-- Embedding of `build_daily_path(inputs, rates)`.  `rates` is the dense
daily-rate series (`daily_rate` at each date; `fetch_rates` guarantees the
series is total on the span, so it is a function). -/
def build_daily_path (inputs : QuarterInputs) (rates : ℤ → ℚ) : DailyPath :=
  let days := quarterDays inputs
  let balance := runBalances inputs.start_liq
    (days.map (fun d => mechFlow inputs d + driftPerDay inputs))
  let interest_rows := (balance.zip (days.map rates)).map (fun p => p.1 * p.2)
  ⟨days, days.map (eventFlow inputs.events), days.map (btcFlow inputs.btc_out),
    driftPerDay inputs, balance, interest_rows, interest_rows.sum⟩

theorem runBalances_length (bal : ℚ) (fs : List ℚ) :
    (runBalances bal fs).length = fs.length := by
  induction fs generalizing bal with
  | nil => rfl
  | cons f fs ih => simp [runBalances, ih]

theorem getLast?_cons_of_ne_nil {α : Type _} (a : α) (l : List α) (h : l ≠ []) :
    (a :: l).getLast? = l.getLast? := by
  cases l with
  | nil => exact absurd rfl h
  | cons b t => exact List.getLast?_cons_cons

theorem runBalances_getLast? (bal : ℚ) (fs : List ℚ) (h : fs ≠ []) :
    (runBalances bal fs).getLast? = some (bal + fs.sum) := by
  induction fs generalizing bal with
  | nil => exact absurd rfl h
  | cons f fs ih =>
    cases fs with
    | nil => simp [runBalances]
    | cons f' fs' =>
      have hne : runBalances (bal + f) (f' :: fs') ≠ [] := by
        intro hc
        have hl := runBalances_length (bal + f) (f' :: fs')
        rw [hc] at hl
        simp at hl
      rw [runBalances, getLast?_cons_of_ne_nil _ _ hne, ih (bal + f) (by simp)]
      congr 1
      simp only [List.sum_cons]
      ring

/-- Sum of a mapped list where a constant is added pointwise. -/
theorem sum_map_add_const (l : List ℤ) (f : ℤ → ℚ) (c : ℚ) :
    (l.map (fun d => f d + c)).sum = (l.map f).sum + l.length * c := by
  induction l with
  | nil => simp
  | cons x xs ih =>
    simp [ih]
    ring

theorem quarterDays_length_pos (inputs : QuarterInputs) (h : inputs.q_start ≤ inputs.q_end) :
    0 < (quarterDays inputs).length := by
  rw [quarterDays, length_dateRange]
  omega

/-- C1.  Reconciliation exactness: for any quarter with at least one day —
in particular every reported quarter, whose `end_liq` is the anchor value —
the last entry of the `ending_balance_mm` column built by
`build_daily_path` equals the configured `end_liq` exactly, for any events
and purchase flows.  (Exact rational arithmetic; the floating-point
statement of the claim is the 1e-6-tolerance shadow of this.) -/
theorem build_daily_path_reconciles (inputs : QuarterInputs) (rates : ℤ → ℚ)
    (h : inputs.q_start ≤ inputs.q_end) :
    (build_daily_path inputs rates).ending_balance_mm.getLast? = some inputs.end_liq := by
  have hpos : 0 < (quarterDays inputs).length := quarterDays_length_pos inputs h
  have hne : (quarterDays inputs).map (fun d => mechFlow inputs d + driftPerDay inputs) ≠ [] := by
    intro hc
    have hl := congrArg List.length hc
    rw [List.length_map] at hl
    simp only [List.length_nil] at hl
    omega
  show (runBalances inputs.start_liq
      ((quarterDays inputs).map (fun d => mechFlow inputs d + driftPerDay inputs))).getLast?
    = some inputs.end_liq
  rw [runBalances_getLast? _ _ hne]
  congr 1
  rw [sum_map_add_const]
  have hn : (((quarterDays inputs).length : ℕ) : ℚ) ≠ 0 := by
    exact_mod_cast Nat.pos_iff_ne_zero.mp hpos
  rw [driftPerDay]
  rw [show ((quarterDays inputs).map (mechFlow inputs)).sum = mechFlowsTotal inputs from rfl]
  field_simp

/-- Witness for the reconciliation theorem at a concrete quarter. -/
theorem build_daily_path_reconciles_witness :
    (build_daily_path ⟨0, 9, 1000, 1100, [], []⟩ (fun _ => 1/10000)).ending_balance_mm.getLast?
      = some 1100 :=
  build_daily_path_reconciles ⟨0, 9, 1000, 1100, [], []⟩ (fun _ => 1/10000) (by decide)

/-- C9.  Concrete scenario: start 1000, end 1100, no events, no purchases,
a ten-day quarter, flat daily rate 0.0001.  The drift is exactly 10 per
day, the ending balances are 1010, 1020, …, 1100 in order (so the final
balance is exactly 1100), and the interest is
0.0001 × (1010 + 1020 + ⋯ + 1100) = 1.055 millions exactly. -/
theorem scenario_ten_day_quarter :
    (build_daily_path ⟨0, 9, 1000, 1100, [], []⟩ (fun _ => 1/10000)).drift = 10 ∧
    (build_daily_path ⟨0, 9, 1000, 1100, [], []⟩ (fun _ => 1/10000)).ending_balance_mm
      = [1010, 1020, 1030, 1040, 1050, 1060, 1070, 1080, 1090, 1100] ∧
    (build_daily_path ⟨0, 9, 1000, 1100, [], []⟩ (fun _ => 1/10000)).interest_mm
      = (1/10000) * (1010 + 1020 + 1030 + 1040 + 1050 + 1060 + 1070 + 1080 + 1090 + 1100) ∧
    (build_daily_path ⟨0, 9, 1000, 1100, [], []⟩ (fun _ => 1/10000)).interest_mm
      = 1055/1000 := by
  have hdays : dateRange 0 9 = [0, 1, 2, 3, 4, 5, 6, 7, 8, 9] := by decide
  norm_num [build_daily_path, quarterDays, hdays, mechFlow, mechFlowsTotal, driftPerDay,
    eventFlow, btcFlow, runBalances]

/-- One row of the quarter frame `qdf`: `{iq, q_start, q_end, days}` with
`days = (q_end - q_start).days + 1`. -/
structure QRow where
  iq : ℕ
  q_start : ℤ
  q_end : ℤ
  days : ℤ
deriving DecidableEq, Repr

/-- The row-building loop of `build_quarter_frame_with_forecast`: for the
first row `start = e - (quarter_days - 1)`, afterwards `start = prev + 1`;
the `.assign` then adds `days = (q_end - q_start).days + 1`. -/
def mkQuarterRows (qd : ℤ) : Option ℤ → ℕ → List ℤ → List QRow
  | _, _, [] => []
  | prev, i, e :: rest =>
    let start := match prev with
      | some p => p + 1
      | none => e - (qd - 1)
    ⟨i + 1, start, e, e - start + 1⟩ :: mkQuarterRows qd (some e) (i + 1) rest

/-- The forecast-appending loop: `next_end = ends[-1] + quarter_days`
appended `max(int(forecast_quarters), 0)` times; `ends[-1]` on an empty
list raises `IndexError`. -/
def extendEnds (qd : ℤ) : List ℤ → ℕ → Except ConfigError (List ℤ)
  | ends, 0 => .ok ends
  | ends, n + 1 =>
    match ends.getLast? with
    | none => .error .indexErrorEmptyEnds
    | some last => extendEnds qd (ends ++ [last + qd]) n

/-- Embedding of `build_quarter_frame_with_forecast(forecast_quarters,
quarter_days)`, parametrised by the anchor quarter-end dates (the keys of
`quarter_end_liquidity()`).  When the anchor set is empty and no forecast
quarter is appended, `rows` is empty and the `.assign` lambda raises
`KeyError` reading the missing `q_end` column of the empty frame. -/
def build_quarter_frame_with_forecast (anchors : List ℤ) (forecast_quarters : ℤ)
    (quarter_days : ℤ) : Except ConfigError (List QRow) :=
  match extendEnds quarter_days (anchors.mergeSort (fun a b => decide (a ≤ b)))
      (max forecast_quarters 0).toNat with
  | .error err => .error err
  | .ok ends2 =>
    let rows := mkQuarterRows quarter_days none 0 ends2
    if rows.isEmpty then .error .keyErrorEmptyFrame else .ok rows

theorem mkQuarterRows_length (qd : ℤ) (prev : Option ℤ) (i : ℕ) (l : List ℤ) :
    (mkQuarterRows qd prev i l).length = l.length := by
  induction l generalizing prev i with
  | nil => rfl
  | cons e rest ih => simp [mkQuarterRows, ih]

theorem mkQuarterRows_qend (qd : ℤ) (prev : Option ℤ) (i : ℕ) (l : List ℤ) (j : ℕ)
    (hj : j < (mkQuarterRows qd prev i l).length) (hj' : j < l.length) :
    (mkQuarterRows qd prev i l)[j].q_end = l[j] := by
  induction l generalizing prev i j with
  | nil => simp at hj'
  | cons e rest ih =>
    cases j with
    | zero => rfl
    | succ j =>
      simp only [mkQuarterRows, List.getElem_cons_succ]
      exact ih (some e) (i + 1) j (by simpa [mkQuarterRows] using hj) (by simpa using hj')

theorem mkQuarterRows_days_formula (qd : ℤ) (prev : Option ℤ) (i : ℕ) (l : List ℤ) (j : ℕ)
    (hj : j < (mkQuarterRows qd prev i l).length) :
    (mkQuarterRows qd prev i l)[j].days
      = (mkQuarterRows qd prev i l)[j].q_end - (mkQuarterRows qd prev i l)[j].q_start + 1 := by
  induction l generalizing prev i j with
  | nil => simp [mkQuarterRows] at hj
  | cons e rest ih =>
    cases j with
    | zero => rfl
    | succ j =>
      simp only [mkQuarterRows, List.getElem_cons_succ]
      exact ih (some e) (i + 1) j (by simpa [mkQuarterRows] using hj)

theorem mkQuarterRows_contig (qd : ℤ) (prev : Option ℤ) (i : ℕ) (l : List ℤ) (j : ℕ)
    (hj : j + 1 < (mkQuarterRows qd prev i l).length) :
    (mkQuarterRows qd prev i l)[j + 1].q_start = (mkQuarterRows qd prev i l)[j].q_end + 1 := by
  induction l generalizing prev i j with
  | nil => simp [mkQuarterRows] at hj
  | cons e rest ih =>
    rw [mkQuarterRows_length] at hj
    cases j with
    | zero =>
      cases rest with
      | nil => simp at hj
      | cons e' rest' => rfl
    | succ j =>
      simp only [mkQuarterRows, List.getElem_cons_succ]
      exact ih (some e) (i + 1) j (by rw [mkQuarterRows_length]; simpa using hj)

theorem extendEnds_closed (qd : ℤ) (es : List ℤ) (l : ℤ) (n : ℕ) :
    extendEnds qd (es ++ [l]) n
      = .ok ((es ++ [l]) ++ (List.range n).map (fun k : ℕ => l + qd * ((k : ℤ) + 1))) := by
  induction n generalizing es l with
  | zero => simp [extendEnds]
  | succ n ih =>
    rw [extendEnds]
    rw [List.getLast?_concat]
    dsimp only
    rw [ih (es ++ [l]) (l + qd)]
    congr 1
    rw [List.range_succ_eq_map, List.map_cons, List.map_map, List.append_assoc]
    congr 2
    simp
    intro a _
    ring

theorem mkQuarterRows_first (qd : ℤ) (l : List ℤ)
    (h : 0 < (mkQuarterRows qd none 0 l).length) :
    (mkQuarterRows qd none 0 l)[0].q_start = (mkQuarterRows qd none 0 l)[0].q_end - (qd - 1) := by
  cases l with
  | nil => simp [mkQuarterRows] at h
  | cons e rest => rfl

/-- Shared helper: on an empty anchor list the frame builder errors for
every forecast count. -/
theorem buildFrame_nil_not_ok (fq qd : ℤ) :
    (build_quarter_frame_with_forecast [] fq qd).isOk = false := by
  rw [build_quarter_frame_with_forecast, List.mergeSort_nil]
  cases hn : (max fq 0).toNat with
  | zero => simp [extendEnds, mkQuarterRows, Except.isOk, Except.toBool]
  | succ n => simp [extendEnds, Except.isOk, Except.toBool]

/-- C8.  Empty anchor set is fatal: with an empty anchor table the quarter
frame builder aborts (with the `IndexError` of `ends[-1]` when at least one
forecast quarter is requested, else with the `KeyError` of the `.assign`
on the empty frame) for every `forecast_quarters`, including zero, rather
than returning a frame. -/
theorem empty_anchor_table_aborts (fq qd : ℤ) :
    (build_quarter_frame_with_forecast [] fq qd).isOk = false :=
  buildFrame_nil_not_ok fq qd

/-- C10.  Implicit clamping: `max(int(forecast_quarters), 0)` makes every
`forecast_quarters ≤ 0` behave exactly like `0` — no forecast quarter is
appended and no error is raised for a negative count; with a non-empty
anchor table a frame is returned. -/
theorem forecast_quarters_clamped (anchors : List ℤ) (qd fq : ℤ) (h : fq ≤ 0) :
    build_quarter_frame_with_forecast anchors fq qd
      = build_quarter_frame_with_forecast anchors 0 qd ∧
    (anchors ≠ [] → (build_quarter_frame_with_forecast anchors fq qd).isOk = true) := by
  have h0 : (max fq 0).toNat = 0 := by omega
  have h0' : (max (0 : ℤ) 0).toNat = 0 := by omega
  constructor
  · rw [build_quarter_frame_with_forecast, build_quarter_frame_with_forecast, h0, h0']
  · intro hne
    rw [build_quarter_frame_with_forecast, h0]
    rw [show extendEnds qd (anchors.mergeSort (fun a b => decide (a ≤ b))) 0
        = .ok (anchors.mergeSort (fun a b => decide (a ≤ b))) from rfl]
    have hrows : mkQuarterRows qd none 0 (anchors.mergeSort (fun a b => decide (a ≤ b))) ≠ [] := by
      intro hc
      apply hne
      have hl := congrArg List.length hc
      rw [mkQuarterRows_length, List.length_mergeSort] at hl
      simpa using hl
    simp [hrows, Except.isOk, Except.toBool]

/-- C6.  Quarter frame contiguity: in any frame the builder returns, every
quarter after the first starts the day after the previous quarter ends (no
gaps or overlaps), the first quarter's start is back-computed from its end
by the assumed length, and every appended forecast quarter (row index at
or beyond the anchor count) has an inclusive day count of exactly
`quarter_days`. -/
theorem quarter_frame_contiguity (anchors : List ℤ) (fq qd : ℤ) (rows : List QRow)
    (hok : build_quarter_frame_with_forecast anchors fq qd = .ok rows) :
    (∀ i (hi : i + 1 < rows.length), rows[i + 1].q_start = rows[i].q_end + 1) ∧
    (∀ h0 : 0 < rows.length, rows[0].q_start = rows[0].q_end - (qd - 1)) ∧
    (∀ i (hi : i < rows.length), anchors.length ≤ i → rows[i].days = qd) := by
  rcases List.eq_nil_or_concat (anchors.mergeSort (fun a b => decide (a ≤ b))) with hS | hS
  · have hanil : anchors = [] := by
      have hl := congrArg List.length hS
      rw [List.length_mergeSort] at hl
      exact List.length_eq_zero.mp (by simpa using hl)
    rw [hanil] at hok
    have hbad := buildFrame_nil_not_ok fq qd
    rw [hok] at hbad
    simp [Except.isOk, Except.toBool] at hbad
  obtain ⟨es, lastE, hS⟩ := hS
  rw [List.concat_eq_append] at hS
  rw [build_quarter_frame_with_forecast, hS,
    extendEnds_closed qd es lastE (max fq 0).toNat] at hok
  dsimp only at hok
  rw [show (mkQuarterRows qd none 0
      ((es ++ [lastE]) ++ (List.range (max fq 0).toNat).map
        (fun k : ℕ => lastE + qd * ((k : ℤ) + 1)))).isEmpty = false by
    rw [List.isEmpty_eq_false]
    intro hc
    have hl := congrArg List.length hc
    rw [mkQuarterRows_length] at hl
    simp at hl] at hok
  rw [if_neg (by simp)] at hok
  injection hok with hok
  subst hok
  have hL : anchors.length = es.length + 1 := by
    have hl := congrArg List.length hS
    rw [List.length_mergeSort] at hl
    simpa using hl
  refine ⟨fun i hi => mkQuarterRows_contig _ _ _ _ i hi,
    fun h0 => mkQuarterRows_first _ _ h0, fun i hi hA => ?_⟩
  rw [mkQuarterRows_length] at hi
  cases i with
  | zero => omega
  | succ j =>
    have hlen2 : ((es ++ [lastE]) ++ (List.range (max fq 0).toNat).map
        (fun k : ℕ => lastE + qd * ((k : ℤ) + 1))).length
        = (es.length + 1) + (max fq 0).toNat := by
      simp
      omega
    have hj1 : j + 1 < ((es ++ [lastE]) ++ (List.range (max fq 0).toNat).map
        (fun k : ℕ => lastE + qd * ((k : ℤ) + 1))).length := hi
    have hj0 : j < ((es ++ [lastE]) ++ (List.range (max fq 0).toNat).map
        (fun k : ℕ => lastE + qd * ((k : ℤ) + 1))).length := by omega
    have hmk : j + 1 < (mkQuarterRows qd none 0 ((es ++ [lastE]) ++
        (List.range (max fq 0).toNat).map (fun k : ℕ => lastE + qd * ((k : ℤ) + 1)))).length := by
      rw [mkQuarterRows_length]
      exact hj1
    have hdf := mkQuarterRows_days_formula qd none 0 _ (j + 1) hmk
    have hcg := mkQuarterRows_contig qd none 0 _ j hmk
    have hq1 := mkQuarterRows_qend qd none 0 _ (j + 1) hmk hj1
    have hq0 := mkQuarterRows_qend qd none 0 _ j (by omega) hj0
    rw [hdf, hcg, hq1, hq0]
    have hjL : es.length + 1 ≤ j + 1 := by omega
    have e1 : ((es ++ [lastE]) ++ (List.range (max fq 0).toNat).map
        (fun k : ℕ => lastE + qd * ((k : ℤ) + 1)))[j + 1]
        = lastE + qd * ((((j + 1) - (es.length + 1) : ℕ) : ℤ) + 1) := by
      rw [List.getElem_append_right (by simpa using hjL)]
      simp
    rcases Nat.lt_or_ge j (es.length + 1) with hcase | hcase
    · have hje : j = es.length := by omega
      have e0 : ((es ++ [lastE]) ++ (List.range (max fq 0).toNat).map
          (fun k : ℕ => lastE + qd * ((k : ℤ) + 1)))[j] = lastE := by
        rw [List.getElem_append_left (by simp [hje])]
        subst hje
        exact List.getElem_concat_length es lastE _ rfl (by simp)
      rw [e0, e1]
      have hz : (j + 1) - (es.length + 1) = 0 := by omega
      rw [hz]
      push_cast
      ring
    · have e0 : ((es ++ [lastE]) ++ (List.range (max fq 0).toNat).map
          (fun k : ℕ => lastE + qd * ((k : ℤ) + 1)))[j]
          = lastE + qd * (((j - (es.length + 1) : ℕ) : ℤ) + 1) := by
        rw [List.getElem_append_right (by simpa using hcase)]
        simp
      rw [e0, e1]
      have h1 : (((j + 1) - (es.length + 1) : ℕ) : ℤ) = ((j - (es.length + 1) : ℕ) : ℤ) + 1 := by
        omega
      rw [h1]
      ring

/-- Witness for the clamping theorem at `forecast_quarters = -3`. -/
theorem forecast_quarters_clamped_witness :
    build_quarter_frame_with_forecast [100] (-3) 91
      = build_quarter_frame_with_forecast [100] 0 91 ∧
    (([100] : List ℤ) ≠ [] → (build_quarter_frame_with_forecast [100] (-3) 91).isOk = true) :=
  forecast_quarters_clamped [100] 91 (-3) (by decide)

/-- Witness for the contiguity theorem on one anchor plus one forecast
quarter. -/
theorem quarter_frame_contiguity_witness :
    (∀ i (hi : i + 1 < ([⟨1, 10, 100, 91⟩, ⟨2, 101, 191, 91⟩] : List QRow).length),
      ([⟨1, 10, 100, 91⟩, ⟨2, 101, 191, 91⟩] : List QRow)[i + 1].q_start
        = ([⟨1, 10, 100, 91⟩, ⟨2, 101, 191, 91⟩] : List QRow)[i].q_end + 1) ∧
    (∀ h0 : 0 < ([⟨1, 10, 100, 91⟩, ⟨2, 101, 191, 91⟩] : List QRow).length,
      ([⟨1, 10, 100, 91⟩, ⟨2, 101, 191, 91⟩] : List QRow)[0].q_start
        = ([⟨1, 10, 100, 91⟩, ⟨2, 101, 191, 91⟩] : List QRow)[0].q_end - (91 - 1)) ∧
    (∀ i (hi : i < ([⟨1, 10, 100, 91⟩, ⟨2, 101, 191, 91⟩] : List QRow).length),
      ([(100 : ℤ)] : List ℤ).length ≤ i →
        ([⟨1, 10, 100, 91⟩, ⟨2, 101, 191, 91⟩] : List QRow)[i].days = 91) :=
  quarter_frame_contiguity [100] 1 91 [⟨1, 10, 100, 91⟩, ⟨2, 101, 191, 91⟩] (by
    rw [build_quarter_frame_with_forecast, List.mergeSort_singleton]
    rfl)

/-- Forward fill over a column in index order, the pandas `.ffill()`:
`last` is the value carried from the rows already passed. -/
def ffillAux (last : Option ℚ) : List (Option ℚ) → List (Option ℚ)
  | [] => []
  | x :: xs =>
    match x with
    | some v => some v :: ffillAux (some v) xs
    | none => last :: ffillAux last xs

/-- The pandas `.ffill()` on a fresh column. -/
def ffill (l : List (Option ℚ)) : List (Option ℚ) := ffillAux none l

/-- The pandas `.bfill()`: a forward fill run from the far end. -/
def bfill (l : List (Option ℚ)) : List (Option ℚ) := (ffillAux none l.reverse).reverse

/-- Embedding of `fetch_rates(start, end)`.  `raw` is the outcome of the
FRED fetch: the `rate_pct` at each date, `none` when the fetch failed (the
empty frame substituted in the `except` arm makes `raw` constantly
`none`), the date is absent from the response, or the value is NaN.  The
body reindexes to the complete daily range, forward-fills, backward-fills,
fills what is left with `DEFAULT_OFFLINE_RATE_PCT`, and derives
`daily_rate = (rate_pct / 100.0) / DAYCOUNT`; rows are (date, rate_pct,
daily_rate). -/
def fetch_rates (raw : ℤ → Option ℚ) (start endd : ℤ) : List (ℤ × ℚ × ℚ) :=
  let all_days := dateRange start endd
  let filled := (bfill (ffill (all_days.map raw))).map
    (fun o => o.getD DEFAULT_OFFLINE_RATE_PCT)
  (all_days.zip filled).map (fun p => (p.1, p.2, p.2 / 100 / DAYCOUNT))

theorem ffillAux_length (last : Option ℚ) (l : List (Option ℚ)) :
    (ffillAux last l).length = l.length := by
  induction l generalizing last with
  | nil => rfl
  | cons x xs ih => cases x <;> simp [ffillAux, ih]

theorem ffill_length (l : List (Option ℚ)) : (ffill l).length = l.length := by
  rw [ffill, ffillAux_length]

theorem bfill_length (l : List (Option ℚ)) : (bfill l).length = l.length := by
  rw [bfill, List.length_reverse, ffillAux_length, List.length_reverse]

theorem exists_zip_mem {α β : Type _} (l1 : List α) (l2 : List β)
    (h : l1.length = l2.length) (x : α) (hx : x ∈ l1) : ∃ y, (x, y) ∈ l1.zip l2 := by
  induction l1 generalizing l2 with
  | nil => simp at hx
  | cons a t ih =>
    cases l2 with
    | nil => simp at h
    | cons b t2 =>
      rcases List.mem_cons.mp hx with rfl | hx2
      · exact ⟨b, by simp⟩
      · obtain ⟨y, hy⟩ := ih t2 (by simpa using h) hx2
        exact ⟨y, by simp [hy]⟩

/-- C7.  Rate series completeness: for every requested range and every
outcome of the external source — including total failure, where `raw` is
constantly `none` — every calendar day of the range appears in the result
of `fetch_rates` with a defined `rate_pct` and with
`daily_rate = (rate_pct / 100) / 365`. -/
theorem fetch_rates_complete (raw : ℤ → Option ℚ) (start endd d : ℤ)
    (h2 : start ≤ d) (h3 : d ≤ endd) :
    ∃ p : ℚ, (d, p, p / 100 / DAYCOUNT) ∈ fetch_rates raw start endd := by
  have hlen : (dateRange start endd).length
      = ((bfill (ffill ((dateRange start endd).map raw))).map
          (fun o => o.getD DEFAULT_OFFLINE_RATE_PCT)).length := by
    rw [List.length_map, bfill_length, ffill_length, List.length_map]
  obtain ⟨y, hy⟩ := exists_zip_mem _ _ hlen d (mem_dateRange.mpr ⟨h2, h3⟩)
  exact ⟨y, List.mem_map_of_mem _ hy⟩

/-- Witness for rate-series completeness: a failing source on a three-day
range still yields day 1 with the offline default rate. -/
theorem fetch_rates_complete_witness :
    ∃ p : ℚ, ((1 : ℤ), p, p / 100 / DAYCOUNT) ∈ fetch_rates (fun _ => none) 0 2 :=
  fetch_rates_complete (fun _ => none) 0 2 1 (by decide) (by decide)

/-- One entry of `FUTURE_RATE_EVENTS`: applies from `date` forward, with
either a relative `delta_bps` or an absolute `to_pct` (each optional). -/
structure RateEvent where
  date : ℤ
  delta_bps : Option ℚ
  to_pct : Option ℚ
deriving DecidableEq

/-- The event loop of `apply_future_rate_events` over the `rate_pct`
column (rows are (date, rate_pct)).  Python checks `if not mask.any():
continue` before the both-fields check, then raises `ValueError` when both
`delta_bps` and `to_pct` are present, else sets the absolute level or adds
`delta_bps / 100.0` on the masked rows. -/
def applyEventsGo : List (ℤ × ℚ) → List RateEvent → Except ConfigError (List (ℤ × ℚ))
  | out, [] => .ok out
  | out, ev :: rest =>
    if (out.filter (fun p => decide (ev.date ≤ p.1))).isEmpty then applyEventsGo out rest
    else
      match ev.delta_bps, ev.to_pct with
      | some _, some _ => .error .bothRateFields
      | none, some t =>
        applyEventsGo (out.map (fun p => if ev.date ≤ p.1 then (p.1, t) else p)) rest
      | some dl, none =>
        applyEventsGo (out.map (fun p => if ev.date ≤ p.1 then (p.1, p.2 + dl / 100) else p)) rest
      | none, none => applyEventsGo out rest

/-- Embedding of `apply_future_rate_events(rates, events)`; rate rows are
(date, rate_pct, daily_rate).  With no events the frame is returned
untouched; otherwise events are processed sorted by date (the
`to_numeric(...).fillna(...)` is the identity here, the embedded column
holding no NaN) and `daily_rate` is recomputed at the end. -/
def apply_future_rate_events (rates : List (ℤ × ℚ × ℚ)) (events : List RateEvent) :
    Except ConfigError (List (ℤ × ℚ × ℚ)) :=
  if events.isEmpty then .ok rates
  else
    match applyEventsGo (rates.map (fun r => (r.1, r.2.1)))
        (events.mergeSort (fun a b => decide (a.date ≤ b.date))) with
    | .error e => .error e
    | .ok out => .ok (out.map (fun p => (p.1, p.2, p.2 / 100 / DAYCOUNT)))

theorem applyEventsGo_error (l : List RateEvent) (out : List (ℤ × ℚ)) (ev : RateEvent)
    (hev : ev ∈ l) (hd : ev.delta_bps.isSome) (ha : ev.to_pct.isSome)
    (hmask : ∃ r ∈ out, ev.date ≤ r.1) :
    applyEventsGo out l = .error .bothRateFields := by
  induction l generalizing out with
  | nil => simp at hev
  | cons h t ih =>
    simp only [applyEventsGo]
    by_cases hm : ((out.filter (fun p => decide (h.date ≤ p.1))).isEmpty : Bool) = true
    · rw [if_pos hm]
      rcases List.mem_cons.mp hev with rfl | hev2
      · exfalso
        obtain ⟨r, hr, hle⟩ := hmask
        have hmem : r ∈ out.filter (fun p => decide (ev.date ≤ p.1)) :=
          List.mem_filter.mpr ⟨hr, by simpa using hle⟩
        rw [List.isEmpty_iff] at hm
        rw [hm] at hmem
        simp at hmem
      · exact ih out hev2 hmask
    · rw [if_neg hm]
      rcases hdb : h.delta_bps with _ | dv <;> rcases hab : h.to_pct with _ | av
      · rcases List.mem_cons.mp hev with rfl | hev2
        · rw [hdb] at hd
          simp at hd
        · exact ih out hev2 hmask
      · rcases List.mem_cons.mp hev with rfl | hev2
        · rw [hdb] at hd
          simp at hd
        · refine ih _ hev2 ?_
          obtain ⟨r, hr, hle⟩ := hmask
          refine ⟨(if h.date ≤ r.1 then (r.1, av) else r), List.mem_map_of_mem _ hr, ?_⟩
          by_cases hc : h.date ≤ r.1 <;> simp [hc, hle]
      · rcases List.mem_cons.mp hev with rfl | hev2
        · rw [hab] at ha
          simp at ha
        · refine ih _ hev2 ?_
          obtain ⟨r, hr, hle⟩ := hmask
          refine ⟨(if h.date ≤ r.1 then (r.1, r.2 + dv / 100) else r), List.mem_map_of_mem _ hr, ?_⟩
          by_cases hc : h.date ≤ r.1 <;> simp [hc, hle]
      · rfl

/-- C4 counterexample: an event that carries both `delta_bps` and `to_pct`
but is dated after every date of the rate index is skipped by the
`if not mask.any(): continue` guard before the both-fields check, so the
call returns normally instead of raising — refuting the claim's
"regardless of the event's date relative to the rate series' date
range". -/
theorem rate_event_both_fields_not_always_error :
    (apply_future_rate_events [(0, 5, 5 / 100 / DAYCOUNT)]
      [⟨5, some (-25), some (7 / 2)⟩]).isOk = true := by
  rw [apply_future_rate_events]
  rw [if_neg (by simp)]
  rw [List.mergeSort_singleton]
  rfl

/-- C4 amended: for every scheduled rate event specifying both `to_pct`
and `delta_bps`, `apply_future_rate_events` raises the `ValueError`
rather than applying either adjustment — provided the event's date is on
or before at least one date of the rate series' index; an event dated
after the whole index is skipped without any check. -/
theorem rate_event_both_fields_raises (rates : List (ℤ × ℚ × ℚ)) (events : List RateEvent)
    (ev : RateEvent) (hev : ev ∈ events) (hd : ev.delta_bps.isSome) (ha : ev.to_pct.isSome)
    (hmask : ∃ r ∈ rates, ev.date ≤ r.1) :
    apply_future_rate_events rates events = .error .bothRateFields := by
  rw [apply_future_rate_events]
  rw [if_neg (by simp [List.isEmpty_iff]; exact List.ne_nil_of_mem hev)]
  have hgo := applyEventsGo_error (events.mergeSort (fun a b => decide (a.date ≤ b.date)))
    (rates.map (fun r => (r.1, r.2.1))) ev (List.mem_mergeSort.mpr hev) hd ha (by
      obtain ⟨r, hr, hle⟩ := hmask
      exact ⟨(r.1, r.2.1), List.mem_map_of_mem _ hr, hle⟩)
  rw [hgo]

/-- Witness for the amended both-fields theorem: one in-range event with
both fields set makes the call error out. -/
theorem rate_event_both_fields_raises_witness :
    apply_future_rate_events [(0, 5, 5 / 100 / DAYCOUNT)]
      [⟨0, some (-25), some (7 / 2)⟩] = .error .bothRateFields :=
  rate_event_both_fields_raises [(0, 5, 5 / 100 / DAYCOUNT)]
    [⟨0, some (-25), some (7 / 2)⟩] ⟨0, some (-25), some (7 / 2)⟩
    (List.mem_cons_self _ _) rfl rfl
    ⟨(0, 5, 5 / 100 / DAYCOUNT), List.mem_cons_self _ _, by decide⟩

/-- One row of the frame returned by `btc_outflow_series`: the daily cash
flow (USD millions, negative), with the diagnostic unit/price columns
optional — `none` is the NaN the fallback writes. -/
structure BtcRow where
  cash_flow : ℚ
  btc_units : Option ℚ
  btc_price_usd : Option ℚ
  btc_fee_mult : ℚ
deriving DecidableEq

/-- The `except` arm of `btc_outflow_series` (price fetch failed): every
day of [start, endd] gets
`per_day_mm = -((override if given else BTC_USD_TOTAL_MM / len(dates)) * fee_mult)`
with `fee_mult = 1 + fee_bps / 10_000`, while `btc_units` and
`btc_price_usd` are left NaN.  (When the window is empty the function has
already returned the empty frame before the `try`; the map on the empty
date list is that same empty frame.) -/
def btc_outflow_series_fallback (start endd : ℤ)
    (fallback_per_day_mm_override : Option ℚ) (fee_bps : ℚ) : List (ℤ × BtcRow) :=
  let dates := dateRange start endd
  let fee_mult := 1 + fee_bps / 10000
  let per_day_mm :=
    -((fallback_per_day_mm_override.getD (BTC_USD_TOTAL_MM / (dates.length : ℚ))) * fee_mult)
  dates.map (fun d => (d, ⟨per_day_mm, none, none, fee_mult⟩))

theorem sum_map_constQ {α : Type _} (l : List α) (c : ℚ) :
    (l.map (fun _ => c)).sum = l.length * c := by
  induction l with
  | nil => simp
  | cons x xs ih =>
    simp [ih]
    ring

/-- C5 counterexample: on a two-day window with the default
`BTC_FEE_BPS = 150` and no override, the fallback magnitudes sum to
`BTC_USD_TOTAL_MM × 1.015 = 517.65`, not to `BTC_USD_TOTAL_MM = 510` as
the claim states. -/
theorem btc_fallback_total_not_bare :
    ¬ ((btc_outflow_series_fallback 0 1 none BTC_FEE_BPS).map
        (fun r => -r.2.cash_flow)).sum = BTC_USD_TOTAL_MM := by
  have hdays : dateRange 0 1 = [0, 1] := by decide
  norm_num [btc_outflow_series_fallback, hdays, BTC_FEE_BPS, BTC_USD_TOTAL_MM]

/-- C5 amended: when the price fetch fails (no override in play), every
day of the non-empty window carries the same outflow, the unit and price
columns are NaN, and the magnitudes sum to `BTC_USD_TOTAL_MM` times the
fee multiplier `1 + fee_bps / 10000` — the fee uplift is applied on top of
the fixed fallback total. -/
theorem btc_fallback_spreads_evenly (start endd : ℤ) (fee_bps : ℚ) (h : start ≤ endd) :
    (∀ r ∈ btc_outflow_series_fallback start endd none fee_bps,
        r.2.cash_flow
          = -(BTC_USD_TOTAL_MM / (((endd + 1 - start).toNat : ℕ) : ℚ) * (1 + fee_bps / 10000)) ∧
        r.2.btc_units = none ∧ r.2.btc_price_usd = none) ∧
    ((btc_outflow_series_fallback start endd none fee_bps).map
        (fun r => -r.2.cash_flow)).sum = BTC_USD_TOTAL_MM * (1 + fee_bps / 10000) := by
  have hn : (0 : ℕ) < (endd + 1 - start).toNat := by omega
  constructor
  · intro r hr
    obtain ⟨d, hd, rfl⟩ := List.mem_map.mp hr
    refine ⟨?_, rfl, rfl⟩
    show -(Option.getD none (BTC_USD_TOTAL_MM / ((dateRange start endd).length : ℚ))
      * (1 + fee_bps / 10000)) = _
    rw [Option.getD_none, length_dateRange]
  · rw [btc_outflow_series_fallback]
    rw [List.map_map]
    rw [show ((fun r : ℤ × BtcRow => -r.2.cash_flow) ∘ (fun d => (d,
        (⟨-((Option.getD none (BTC_USD_TOTAL_MM / ((dateRange start endd).length : ℚ)))
          * (1 + fee_bps / 10000)), none, none, 1 + fee_bps / 10000⟩ : BtcRow))))
        = (fun _ : ℤ => (BTC_USD_TOTAL_MM / ((dateRange start endd).length : ℚ))
          * (1 + fee_bps / 10000)) from funext fun d => by simp]
    rw [sum_map_constQ, length_dateRange]
    have hne : (((endd + 1 - start).toNat : ℕ) : ℚ) ≠ 0 := by
      exact_mod_cast Nat.pos_iff_ne_zero.mp hn
    field_simp
    ring

/-- Witness for the amended fallback theorem on a two-day window at the
default fee. -/
theorem btc_fallback_spreads_evenly_witness :
    (∀ r ∈ btc_outflow_series_fallback 0 1 none 150,
        r.2.cash_flow
          = -(BTC_USD_TOTAL_MM / ((((1 : ℤ) + 1 - 0).toNat : ℕ) : ℚ) * (1 + (150 : ℚ) / 10000)) ∧
        r.2.btc_units = none ∧ r.2.btc_price_usd = none) ∧
    ((btc_outflow_series_fallback 0 1 none 150).map
        (fun r => -r.2.cash_flow)).sum = BTC_USD_TOTAL_MM * (1 + (150 : ℚ) / 10000) :=
  btc_fallback_spreads_evenly 0 1 150 (by decide)

/-- The configuration and external-data environment read by
`simulate_all`: the liquidity anchors (`quarter_end_liquidity()`), dated
events (`dated_events(...)`), the BTC purchase series on a window
(`btc_outflow_series`, cash-flow column only), the BTC window, and the
dense daily-rate series (`fetch_rates` and
`apply_future_rate_events`). -/
structure SimConfig where
  anchors : List (ℤ × ℚ)
  events : List (ℤ × ℚ)
  btcFn : ℤ → ℤ → List (ℤ × ℚ)
  btc_window : ℤ × ℤ
  rates : ℤ → ℚ

/-- The per-quarter fields of one entry of `results` that take part in the
liquidity arithmetic (the BTC valuation diagnostics and the rounding
applied to the output columns are reporting only and are omitted; the lo
op state `prev_end_liq` is carried through `end_liq_carry`). -/
structure ResultRow where
  q_end : ℤ
  is_forecast : Bool
  days : ℕ
  start_liq : ℚ
  end_liq : ℚ
  ev_sum : ℚ
  btc_sum : ℚ
  modeled_interest_mm : ℚ
  drift_per_day : ℚ
  end_liq_carry : ℚ
deriving DecidableEq

/-- Start liquidity: `prev_end_liq` when set, else the anchor for this
quarter end if present, else `0.0`. -/
def qStartLiq (cfg : SimConfig) (prev_end_liq : Option ℚ) (q : ℤ × ℤ) : ℚ :=
  match prev_end_liq with
  | none => (List.lookup q.2 cfg.anchors).getD 0
  | some v => v

/-- This quarter's dated events,
`events[(events["date"] >= q_start) & (events["date"] <= q_end)]`. -/
def qEvents (cfg : SimConfig) (q : ℤ × ℤ) : List (ℤ × ℚ) :=
  cfg.events.filter (fun p => decide (q.1 ≤ p.1) && decide (p.1 ≤ q.2))

/-- This quarter's BTC series: `btc_outflow_series` on the overlap of the
quarter with the BTC window when non-empty, else the empty frame. -/
def qBtc (cfg : SimConfig) (q : ℤ × ℤ) : List (ℤ × ℚ) :=
  if max q.1 cfg.btc_window.1 ≤ min q.2 cfg.btc_window.2 then
    cfg.btcFn (max q.1 cfg.btc_window.1) (min q.2 cfg.btc_window.2)
  else []

/-- the `q_liq.get(end_key, np.nan)` anchor lookup. -/
def qReported (cfg : SimConfig) (q : ℤ × ℤ) : Option ℚ :=
  List.lookup q.2 cfg.anchors

/-- the `ev_q["amount"].sum()` of the quarter. -/
def qEvSum (cfg : SimConfig) (q : ℤ × ℤ) : ℚ :=
  ((qEvents cfg q).map (fun p => p.2)).sum

/-- the `btc_df["cash_flow"].sum()` of the quarter. -/
def qBtcSum (cfg : SimConfig) (q : ℤ × ℤ) : ℚ :=
  ((qBtc cfg q).map (fun p => p.2)).sum

/-- End liquidity: the anchor value for a reported quarter; for a forecast
quarter `start_liq + ev_sum + btc_sum` (drift 0 by construction). -/
def qEndLiq (cfg : SimConfig) (prev_end_liq : Option ℚ) (q : ℤ × ℤ) : ℚ :=
  match qReported cfg q with
  | some v => v
  | none => qStartLiq cfg prev_end_liq q + qEvSum cfg q + qBtcSum cfg q

/-- the `QuarterInputs(...)` constructed for `build_daily_path`. -/
def qInputs (cfg : SimConfig) (prev_end_liq : Option ℚ) (q : ℤ × ℤ) : QuarterInputs :=
  ⟨q.1, q.2, qStartLiq cfg prev_end_liq q, qEndLiq cfg prev_end_liq q,
    qEvents cfg q, qBtc cfg q⟩

/-- One iteration of the quarter loop of `simulate_all`: carry rule
`end_liq_carry_mm = end_liq + (modeled_interest_mm if is_forecast else 0.0)`. -/
def quarterStep (cfg : SimConfig) (prev_end_liq : Option ℚ) (q : ℤ × ℤ) : ResultRow :=
  let path := build_daily_path (qInputs cfg prev_end_liq q) cfg.rates
  ⟨q.2, (qReported cfg q).isNone, path.days.length,
    qStartLiq cfg prev_end_liq q, qEndLiq cfg prev_end_liq q,
    qEvSum cfg q, qBtcSum cfg q, path.interest_mm, path.drift,
    qEndLiq cfg prev_end_liq q
      + (if (qReported cfg q).isNone then path.interest_mm else 0)⟩

/-- The quarter loop: a strict chronological fold, each quarter's
`start_liq` read from the previous quarter's `end_liq_carry` through
`prev_end_liq` (`None` before the first quarter). -/
def simulateQuarters (cfg : SimConfig) : Option ℚ → List (ℤ × ℤ) → List ResultRow
  | _, [] => []
  | prev, q :: rest =>
    let row := quarterStep cfg prev q
    row :: simulateQuarters cfg (some row.end_liq_carry) rest

/-- Embedding of `simulate_all(...)`: builds the quarter frame from the
anchor dates, then folds the quarter loop over it from an empty carry. -/
def simulate_all (cfg : SimConfig) (forecast_quarters : ℤ) :
    Except ConfigError (List ResultRow) :=
  match build_quarter_frame_with_forecast (cfg.anchors.map (fun p => p.1))
      forecast_quarters 91 with
  | .error e => .error e
  | .ok qrows => .ok (simulateQuarters cfg none (qrows.map (fun r => (r.q_start, r.q_end))))

theorem simulateQuarters_length (cfg : SimConfig) (prev : Option ℚ) (qs : List (ℤ × ℤ)) :
    (simulateQuarters cfg prev qs).length = qs.length := by
  induction qs generalizing prev with
  | nil => rfl
  | cons q rest ih => simp [simulateQuarters, ih]

/-- C3.  Carry continuity: throughout the quarter loop, every quarter
after the first starts at the previous quarter's carry, where the carry is
the previous `end_liq` unchanged for a reported quarter and
`end_liq + modeled_interest` for a forecast quarter. -/
theorem carry_continuity (cfg : SimConfig) (prev : Option ℚ) (qs : List (ℤ × ℤ)) (i : ℕ)
    (hi : i + 1 < (simulateQuarters cfg prev qs).length) :
    (simulateQuarters cfg prev qs)[i + 1].start_liq
      = (simulateQuarters cfg prev qs)[i].end_liq
        + (if (simulateQuarters cfg prev qs)[i].is_forecast then
            (simulateQuarters cfg prev qs)[i].modeled_interest_mm else 0) := by
  induction qs generalizing prev i with
  | nil => simp [simulateQuarters] at hi
  | cons q rest ih =>
    cases i with
    | zero =>
      cases rest with
      | nil =>
        rw [simulateQuarters_length] at hi
        simp at hi
      | cons q2 rest2 =>
        simp only [simulateQuarters, List.getElem_cons_succ, List.getElem_cons_zero]
        rfl
    | succ i =>
      simp only [simulateQuarters, List.getElem_cons_succ]
      exact ih (some (quarterStep cfg prev q).end_liq_carry) i
        (by simpa [simulateQuarters] using hi)

/-- Witness for carry continuity on a two-quarter run: the second quarter
starts at the first quarter's carry. -/
theorem carry_continuity_witness :
    (simulateQuarters ⟨[], [], fun _ _ => [], (0, 0), fun _ => 0⟩ none [(0, 1), (2, 3)])[1].start_liq
      = (simulateQuarters ⟨[], [], fun _ _ => [], (0, 0), fun _ => 0⟩ none [(0, 1), (2, 3)])[0].end_liq
        + (if (simulateQuarters ⟨[], [], fun _ _ => [], (0, 0), fun _ => 0⟩ none
              [(0, 1), (2, 3)])[0].is_forecast then
            (simulateQuarters ⟨[], [], fun _ _ => [], (0, 0), fun _ => 0⟩ none
              [(0, 1), (2, 3)])[0].modeled_interest_mm else 0) :=
  carry_continuity ⟨[], [], fun _ _ => [], (0, 0), fun _ => 0⟩ none [(0, 1), (2, 3)] 0
    (by rw [simulateQuarters_length]; decide)

theorem sum_map_add (l : List ℤ) (f g : ℤ → ℚ) :
    (l.map (fun d => f d + g d)).sum = (l.map f).sum + (l.map g).sum := by
  induction l with
  | nil => simp
  | cons x xs ih =>
    simp [ih]
    ring

theorem sum_ite_zero_of_not_mem (a : ℤ) (x : ℚ) (ds : List ℤ) (h : a ∉ ds) :
    (ds.map (fun d => if a = d then x else 0)).sum = 0 := by
  induction ds with
  | nil => simp
  | cons d ds ih =>
    have hne : a ≠ d := fun hc => h (hc ▸ List.mem_cons_self _ _)
    simp [hne, ih (fun hc => h (List.mem_cons_of_mem _ hc))]

theorem sum_ite_single (a : ℤ) (x : ℚ) (ds : List ℤ) (hnd : ds.Nodup) (ha : a ∈ ds) :
    (ds.map (fun d => if a = d then x else 0)).sum = x := by
  induction ds with
  | nil => simp at ha
  | cons d ds ih =>
    rcases List.mem_cons.mp ha with rfl | ha2
    · have hnotin : a ∉ ds := (List.nodup_cons.mp hnd).1
      simp [sum_ite_zero_of_not_mem a x ds hnotin]
    · have hne : a ≠ d := fun hc => (List.nodup_cons.mp hnd).1 (hc ▸ ha2)
      simp [hne, ih (List.nodup_cons.mp hnd).2 ha2]

/-- Summing the per-day event column over distinct days covering every
event date recovers the plain sum of the amounts. -/
theorem sum_eventFlow (entries : List (ℤ × ℚ)) (days : List ℤ) (hnd : days.Nodup)
    (hmem : ∀ p ∈ entries, p.1 ∈ days) :
    (days.map (eventFlow entries)).sum = (entries.map (fun p => p.2)).sum := by
  induction entries with
  | nil =>
    rw [show days.map (eventFlow []) = days.map (fun _ => (0 : ℚ)) from
      List.map_congr_left (fun d _ => by simp [eventFlow])]
    simp [sum_map_constQ]
  | cons p rest ih =>
    have hstep : days.map (eventFlow (p :: rest))
        = days.map (fun d => (if p.1 = d then p.2 else 0) + eventFlow rest d) := by
      apply List.map_congr_left
      intro d _
      rw [eventFlow, List.filter_cons]
      by_cases hc : p.1 = d
      · simp [hc, eventFlow]
      · simp [hc, eventFlow]
    rw [hstep, sum_map_add days (fun d => if p.1 = d then p.2 else 0) (eventFlow rest)]
    rw [sum_ite_single p.1 p.2 days hnd (hmem p (List.mem_cons_self _ _))]
    rw [ih (fun r hr => hmem r (List.mem_cons_of_mem _ hr))]
    simp

theorem sum_btcFlow (entries : List (ℤ × ℚ)) (days : List ℤ) (hnd : days.Nodup)
    (hmem : ∀ p ∈ entries, p.1 ∈ days) :
    (days.map (btcFlow entries)).sum = (entries.map (fun p => p.2)).sum :=
  sum_eventFlow entries days hnd hmem

/-- When every event and purchase date falls inside the quarter, the
`mech_flows_total` of the daily walk is the plain sum of the amounts. -/
theorem mechFlowsTotal_eq (inputs : QuarterInputs)
    (hev : ∀ p ∈ inputs.events, inputs.q_start ≤ p.1 ∧ p.1 ≤ inputs.q_end)
    (hbt : ∀ p ∈ inputs.btc_out, inputs.q_start ≤ p.1 ∧ p.1 ≤ inputs.q_end) :
    mechFlowsTotal inputs
      = (inputs.events.map (fun p => p.2)).sum + (inputs.btc_out.map (fun p => p.2)).sum := by
  rw [mechFlowsTotal]
  rw [show (quarterDays inputs).map (mechFlow inputs)
      = (quarterDays inputs).map
          (fun d => eventFlow inputs.events d + btcFlow inputs.btc_out d) from rfl]
  rw [sum_map_add]
  rw [sum_eventFlow inputs.events (quarterDays inputs)
    (by rw [quarterDays]; exact nodup_dateRange _ _)
    (fun p hp => by rw [quarterDays]; exact mem_dateRange.mpr (hev p hp))]
  rw [sum_btcFlow inputs.btc_out (quarterDays inputs)
    (by rw [quarterDays]; exact nodup_dateRange _ _)
    (fun p hp => by rw [quarterDays]; exact mem_dateRange.mpr (hbt p hp))]

/-- When the configured end liquidity is exactly start plus flows and all
flow dates are inside the quarter, the residual drift vanishes. -/
theorem driftPerDay_eq_zero (inputs : QuarterInputs)
    (hev : ∀ p ∈ inputs.events, inputs.q_start ≤ p.1 ∧ p.1 ≤ inputs.q_end)
    (hbt : ∀ p ∈ inputs.btc_out, inputs.q_start ≤ p.1 ∧ p.1 ≤ inputs.q_end)
    (hend : inputs.end_liq = inputs.start_liq
      + (inputs.events.map (fun p => p.2)).sum + (inputs.btc_out.map (fun p => p.2)).sum) :
    driftPerDay inputs = 0 := by
  have h0 : inputs.end_liq - inputs.start_liq - mechFlowsTotal inputs = 0 := by
    rw [mechFlowsTotal_eq inputs hev hbt, hend]
    ring
  rw [driftPerDay, h0, zero_div]

/-- A forecast quarter step (no anchor for its end): the orchestrator sets
`end_liq = start_liq + ev_sum + btc_sum` and the daily walk's drift is
exactly zero.  `hbtc` records that `btc_outflow_series` indexes its frame
by the requested window, true of both its branches. -/
theorem quarterStep_forecast (cfg : SimConfig)
    (hbtc : ∀ s e : ℤ, ∀ p ∈ cfg.btcFn s e, s ≤ p.1 ∧ p.1 ≤ e)
    (prev : Option ℚ) (q : ℤ × ℤ)
    (hf : (quarterStep cfg prev q).is_forecast = true) :
    (quarterStep cfg prev q).end_liq
      = (quarterStep cfg prev q).start_liq + (quarterStep cfg prev q).ev_sum
        + (quarterStep cfg prev q).btc_sum ∧
    (quarterStep cfg prev q).drift_per_day = 0 := by
  have hnone : qReported cfg q = none := Option.isNone_iff_eq_none.mp hf
  have hev : ∀ p ∈ qEvents cfg q, q.1 ≤ p.1 ∧ p.1 ≤ q.2 := by
    intro p hp
    have hq := List.mem_filter.mp hp
    simpa using hq.2
  have hbt : ∀ p ∈ qBtc cfg q, q.1 ≤ p.1 ∧ p.1 ≤ q.2 := by
    intro p hp
    rw [qBtc] at hp
    by_cases ho : max q.1 cfg.btc_window.1 ≤ min q.2 cfg.btc_window.2
    · rw [if_pos ho] at hp
      obtain ⟨ho1, ho2⟩ := hbtc _ _ p hp
      exact ⟨le_trans (le_max_left _ _) ho1, le_trans ho2 (min_le_left _ _)⟩
    · rw [if_neg ho] at hp
      simp at hp
  have hendeq : (quarterStep cfg prev q).end_liq
      = (quarterStep cfg prev q).start_liq + (quarterStep cfg prev q).ev_sum
        + (quarterStep cfg prev q).btc_sum := by
    show qEndLiq cfg prev q = qStartLiq cfg prev q + qEvSum cfg q + qBtcSum cfg q
    rw [qEndLiq, hnone]
  refine ⟨hendeq, ?_⟩
  show driftPerDay (qInputs cfg prev q) = 0
  exact driftPerDay_eq_zero (qInputs cfg prev q) hev hbt hendeq

/-- C2.  Drift-zero forecast property: every forecast row of the quarter
loop has `end_liq = start_liq + ev_sum + btc_sum` exactly, and the daily
walk's constant per-day drift for that quarter is exactly zero. -/
theorem forecast_end_liq_and_drift_zero (cfg : SimConfig)
    (hbtc : ∀ s e : ℤ, ∀ p ∈ cfg.btcFn s e, s ≤ p.1 ∧ p.1 ≤ e)
    (prev : Option ℚ) (qs : List (ℤ × ℤ)) (row : ResultRow)
    (hrow : row ∈ simulateQuarters cfg prev qs) (hf : row.is_forecast = true) :
    row.end_liq = row.start_liq + row.ev_sum + row.btc_sum ∧ row.drift_per_day = 0 := by
  induction qs generalizing prev with
  | nil => simp [simulateQuarters] at hrow
  | cons q rest ih =>
    simp only [simulateQuarters] at hrow
    rcases List.mem_cons.mp hrow with rfl | h2
    · exact quarterStep_forecast cfg hbtc prev q hf
    · exact ih _ h2

/-- Witness for the drift-zero forecast theorem on a single anchorless
quarter. -/
theorem forecast_end_liq_and_drift_zero_witness :
    (quarterStep ⟨[], [], fun _ _ => [], (0, 0), fun _ => 0⟩ none (0, 3)).end_liq
      = (quarterStep ⟨[], [], fun _ _ => [], (0, 0), fun _ => 0⟩ none (0, 3)).start_liq
        + (quarterStep ⟨[], [], fun _ _ => [], (0, 0), fun _ => 0⟩ none (0, 3)).ev_sum
        + (quarterStep ⟨[], [], fun _ _ => [], (0, 0), fun _ => 0⟩ none (0, 3)).btc_sum ∧
    (quarterStep ⟨[], [], fun _ _ => [], (0, 0), fun _ => 0⟩ none (0, 3)).drift_per_day = 0 :=
  forecast_end_liq_and_drift_zero ⟨[], [], fun _ _ => [], (0, 0), fun _ => 0⟩
    (fun _ _ p hp => absurd hp (List.not_mem_nil p)) none [(0, 3)]
    (quarterStep ⟨[], [], fun _ _ => [], (0, 0), fun _ => 0⟩ none (0, 3))
    (by simp [simulateQuarters]) rfl

end InterestModel
